import Mathlib

/-!
Verification of the AgentDB vector-store facade (`src/agentdb.js`) against its
natural-language specification.

The JavaScript class `AgentDB` is embedded shallowly:
* JS `Map`s become association lists with unique keys (`getA`, `setA`, `delA`
  mirror `Map.get`, `Map.set`, `Map.delete`; `Map` iteration order is insertion
  order, which the list order represents).
* JS object spread `{...m, ...u}` becomes `spreadA`.
* Vectors are `List ℚ` (the `Float32Array` round-trip preserves length and is
  otherwise treated as exact arithmetic).
* Mutation-then-throw sequences of the source are modelled by returning the
  mutated state together with an `Except`/`Option` error, since a JS exception
  does not roll back prior field assignments.
* The nondeterministic inputs `Date.now()` and the random reasoning-id suffix
  are threaded in as explicit parameters (`now`, `rid`).
-/

namespace AgentDBModel

/-- Decidable equality for `Except`, needed to evaluate concrete scenarios. -/
instance {e a : Type} [DecidableEq e] [DecidableEq a] : DecidableEq (Except e a) := fun x y =>
  match x, y with
  | Except.ok u, Except.ok v =>
      if h : u = v then isTrue (by rw [h]) else isFalse (by intro hc; cases hc; exact h rfl)
  | Except.error u, Except.error v =>
      if h : u = v then isTrue (by rw [h]) else isFalse (by intro hc; cases hc; exact h rfl)
  | Except.ok _, Except.error _ => isFalse (by intro hc; cases hc)
  | Except.error _, Except.ok _ => isFalse (by intro hc; cases hc)

/-- Association-list lookup, mirroring `Map.get`: the value at the first
occurrence of the key, if any. -/
def getA {K V : Type} [DecidableEq K] (l : List (K × V)) (k : K) : Option V :=
  (l.find? fun p => decide (p.1 = k)).map fun p => p.2

/-- `Map.has`: whether the key is present. -/
def hasA {K V : Type} [DecidableEq K] (l : List (K × V)) (k : K) : Bool :=
  (getA l k).isSome

/-- `Map.set`: replace the value in place when the key is present (JS `Map`
keeps the original insertion position), otherwise append the new pair. -/
def setA {K V : Type} [DecidableEq K] (l : List (K × V)) (k : K) (v : V) :
    List (K × V) :=
  if hasA l k then l.map fun p => if p.1 = k then (k, v) else p
  else l ++ [(k, v)]

/-- `Map.delete`: remove the entry with the given key. -/
def delA {K V : Type} [DecidableEq K] (l : List (K × V)) (k : K) :
    List (K × V) :=
  l.filter fun p => decide (p.1 ≠ k)

/-- JS object spread `{...m, ...u}`: keys of `m` keep their position but take
`u`'s value when `u` also binds them; keys of `u` not in `m` are appended in
`u`'s order. -/
def spreadA {K V : Type} [DecidableEq K] (m u : List (K × V)) :
    List (K × V) :=
  (m.map fun p => (p.1, (getA u p.1).getD p.2)) ++
    u.filter fun p => ! hasA m p.1

/-- JS `x || d` on an optionally-present numeric field: `0` and `undefined` are
falsy, so both fall back to the default. -/
def jsOr (o : Option ℕ) (d : ℕ) : ℕ :=
  match o with
  | some n => if n = 0 then d else n
  | none => d

/-- A stored vector record (`memoryStore` entry of `agentdb.js`):
`{ vector, metadata, timestamp, id }`. `V` is the type of metadata values. -/
structure VRec (V : Type) where
  vector : List ℚ
  metadata : List (String × V)
  timestamp : ℕ
  id : ℕ
deriving DecidableEq, Repr

/-- A reasoning record (`reasoningBank` entry):
`{ context, reasoning, metadata, timestamp }`. -/
structure RRec (V : Type) where
  context : String
  reasoning : String
  metadata : List (String × V)
  timestamp : ℕ
deriving DecidableEq, Repr

/-- The state of an `AgentDB` instance. `index` holds the points ever given to
`HierarchicalNSW.addPoint` since the index was last rebuilt, as (label, vector)
pairs in insertion order: the source never removes a point from the index. -/
structure AgentDB (V : Type) where
  dimension : ℕ
  maxElements : ℕ
  m : ℕ
  efConstruction : ℕ
  efSearch : ℕ
  index : List (ℕ × List ℚ)
  memoryStore : List (ℕ × VRec V)
  currentId : ℕ
  reasoningBank : List (String × RRec V)
deriving DecidableEq, Repr

/-- Constructor options; every field of `options` may be absent. -/
structure Options where
  dimension : Option ℕ
  maxElements : Option ℕ
  m : Option ℕ
  efConstruction : Option ℕ
  efSearch : Option ℕ
deriving DecidableEq, Repr

/-- `new AgentDB(options)`: defaults applied with JS `||`, fresh empty index
and stores, `currentId = 0`. -/
def AgentDB.init (V : Type) (opts : Options) : AgentDB V :=
  { dimension := jsOr opts.dimension 384
    maxElements := jsOr opts.maxElements 10000
    m := jsOr opts.m 16
    efConstruction := jsOr opts.efConstruction 200
    efSearch := jsOr opts.efSearch 50
    index := []
    memoryStore := []
    currentId := 0
    reasoningBank := [] }

/-- The two error kinds of the design: here only dimension mismatch is ever
raised by the embedded operations. -/
inductive DBErr where
  | dimensionMismatch (got expected : ℕ)
deriving DecidableEq, Repr

/-- `addVector(vector, metadata)`.  The source runs `const id = this.currentId++`
BEFORE validating the dimension, so the counter increment survives a failed
call (a thrown JS exception does not undo it); on success the point is appended
to the index and a record is stored under the fresh id.  `now` stands for
`Date.now()`. -/
def AgentDB.addVector {V : Type} (s : AgentDB V) (vector : List ℚ)
    (metadata : List (String × V)) (now : ℕ) : Except DBErr ℕ × AgentDB V :=
  let id := s.currentId
  let s1 : AgentDB V := { s with currentId := s.currentId + 1 }
  if vector.length ≠ s.dimension then
    (Except.error (DBErr.dimensionMismatch vector.length s.dimension), s1)
  else
    (Except.ok id,
      { s1 with
        index := s1.index ++ [(id, vector)]
        memoryStore := setA s1.memoryStore id ⟨vector, metadata, now, id⟩ })

/-- Stable insertion of `x` into a list ordered by the measure `d`: `x` goes
after every already-placed element of measure ≤ its own. -/
def insertByDist {α : Type} (d : α → ℚ) (x : α) : List α → List α
  | [] => [x]
  | y :: ys => if d x < d y then x :: y :: ys else y :: insertByDist d x ys

/-- Stable sort by the measure `d` (insertion order preserved on ties). -/
def sortByDist {α : Type} (d : α → ℚ) (l : List α) : List α :=
  l.foldl (fun acc x => insertByDist d x acc) []

/-- Modelled from the spec: the native `hnswlib` index binding is not part of
the repository, so its `searchKnn` is modelled by the index contract of §4.1:
it returns the points of the index ordered by ascending distance to the query
(ties broken by insertion order), truncated to `k`, as (label, distance)
pairs.  The metric is an abstract parameter `dist` (the source fixes the
native library's cosine metric, whose floating-point values live outside the
embedding); the approximation of the graph search and the `efSearch` bound are
not modelled. -/
def searchKnn {V : Type} (dist : List ℚ → List ℚ → ℚ) (s : AgentDB V)
    (query : List ℚ) (k : ℕ) : List (ℕ × ℚ) :=
  ((sortByDist (fun p => dist query p.2) s.index).take k).map
    fun p => (p.1, dist query p.2)

/-- One element of a `search` result: the neighbor id and distance from the
index, plus the hydrating record spread from `memoryStore.get(id)` — which is
`undefined` (`none`) when the id has no record. -/
structure SearchResult (V : Type) where
  nbrId : ℕ
  distance : ℚ
  record : Option (VRec V)
deriving DecidableEq, Repr

/-- `search(query, k)`: validates the query dimension, then maps the raw
k-nearest-neighbor answer through the metadata store. -/
def AgentDB.search {V : Type} (dist : List ℚ → List ℚ → ℚ) (s : AgentDB V)
    (query : List ℚ) (k : ℕ) : Except DBErr (List (SearchResult V)) :=
  if query.length ≠ s.dimension then
    Except.error (DBErr.dimensionMismatch query.length s.dimension)
  else
    Except.ok ((searchKnn dist s query k).map
      fun p => ⟨p.1, p.2, getA s.memoryStore p.1⟩)

/-- `addReasoning(context, reasoning, metadata)`: the generated id (wall clock
plus random suffix in the source) is threaded in as `rid`. -/
def AgentDB.addReasoning {V : Type} (s : AgentDB V) (rid : String)
    (context reasoning : String) (metadata : List (String × V)) (now : ℕ) :
    String × AgentDB V :=
  (rid, { s with reasoningBank := setA s.reasoningBank rid ⟨context, reasoning, metadata, now⟩ })

/-- `getReasoning(id)`. -/
def AgentDB.getReasoning {V : Type} (s : AgentDB V) (rid : String) :
    Option (RRec V) :=
  getA s.reasoningBank rid

/-- ASCII prefix test on character lists (`List.isPrefixOf` specialized, kept
explicit so concrete evaluation reduces structurally). -/
def prefCheck : List Char → List Char → Bool
  | [], _ => true
  | _ :: _, [] => false
  | a :: as, b :: bs => a = b && prefCheck as bs

/-- JS `String.prototype.includes`: the needle occurs contiguously in the
haystack (the empty needle always matches). -/
def subCheck (needle : List Char) : List Char → Bool
  | [] => needle.isEmpty
  | c :: hs => prefCheck needle (c :: hs) || subCheck needle hs

/-- JS `String.prototype.toLowerCase` (ASCII range; the records under test use
ASCII text).  Defined on the character list so that it reduces structurally. -/
def lowerStr (s : String) : String :=
  ⟨s.data.map Char.toLower⟩

/-- The match predicate of `searchReasoning`: the lowercased term occurs in the
lowercased `context` or in the lowercased `reasoning` field. -/
def ciMatch {V : Type} (term : String) (e : RRec V) : Bool :=
  subCheck (lowerStr term).data (lowerStr e.context).data ||
    subCheck (lowerStr term).data (lowerStr e.reasoning).data

/-- `searchReasoning(searchTerm)`: the source iterates the bank in insertion
order pushing every match onto `results`. -/
def AgentDB.searchReasoning {V : Type} (s : AgentDB V) (term : String) :
    List (String × RRec V) :=
  s.reasoningBank.foldl (fun acc p => if ciMatch term p.2 then acc ++ [p] else acc) []

/-- `clear()`: fresh empty index (built with the unchanged construction
parameters), both stores emptied, id counter reset. -/
def AgentDB.clear {V : Type} (s : AgentDB V) : AgentDB V :=
  { s with index := [], memoryStore := [], reasoningBank := [], currentId := 0 }

/-- `deleteVector(id)`: removes the metadata record when present and reports
whether it existed.  The index is left untouched by the source. -/
def AgentDB.deleteVector {V : Type} (s : AgentDB V) (id : ℕ) :
    Bool × AgentDB V :=
  if hasA s.memoryStore id then (true, { s with memoryStore := delA s.memoryStore id })
  else (false, s)

/-- `updateMetadata(id, metadata)`: shallow-merges the update over the stored
metadata (`{...entry.metadata, ...metadata}`) when the id exists. -/
def AgentDB.updateMetadata {V : Type} (s : AgentDB V) (id : ℕ)
    (metadata : List (String × V)) : Bool × AgentDB V :=
  match getA s.memoryStore id with
  | some entry =>
      let merged : VRec V := ⟨entry.vector, spreadA entry.metadata metadata, entry.timestamp, entry.id⟩
      (true, { s with memoryStore := setA s.memoryStore id merged })
  | none => (false, s)

/-- One element of the exported `memoryStore` array:
`{ id, vector, metadata, timestamp }`. -/
structure ExportEntry (V : Type) where
  id : ℕ
  vector : List ℚ
  metadata : List (String × V)
  timestamp : ℕ
deriving DecidableEq, Repr

/-- The `config` object written by `export()`. -/
structure ConfigSnap where
  dimension : ℕ
  maxElements : ℕ
  m : ℕ
  efConstruction : ℕ
  efSearch : ℕ
deriving DecidableEq, Repr

/-- A snapshot as consumed by `import(data)`: every top-level field may be
absent (JS `undefined`), which `import` treats as falsy and skips. -/
structure Snapshot (V : Type) where
  memoryStore : Option (List (ExportEntry V))
  reasoningBank : Option (List (String × RRec V))
  currentId : Option ℕ
  config : Option ConfigSnap
deriving DecidableEq, Repr

/-- `export()` (named `exportDB` because `export` is a Lean keyword): serialize
the metadata store in insertion order, the reasoning bank, the id counter and
all five configuration parameters. -/
def AgentDB.exportDB {V : Type} (s : AgentDB V) : Snapshot V :=
  { memoryStore := some (s.memoryStore.map fun p => ⟨p.1, p.2.vector, p.2.metadata, p.2.timestamp⟩)
    reasoningBank := some s.reasoningBank
    currentId := some s.currentId
    config := some ⟨s.dimension, s.maxElements, s.m, s.efConstruction, s.efSearch⟩ }

/-- The import replay loop: `addVector` on each exported entry in order.  A
dimension mismatch raised by `addVector` escapes `import` as a JS exception,
leaving the mutations made so far in place, so the loop returns the partial
state together with the error. -/
def importVectors {V : Type} (now : ℕ) :
    AgentDB V → List (ExportEntry V) → Option DBErr × AgentDB V
  | s, [] => (none, s)
  | s, e :: es =>
      match AgentDB.addVector s e.vector e.metadata now with
      | (Except.error er, s1) => (some er, s1)
      | (Except.ok _, s1) => importVectors now s1 es

/-- `import(data)` (named `importDB`; `import` is a Lean keyword): clear first,
adopt `dimension` and `maxElements` from `data.config` when present, replay
`addVector` over `data.memoryStore` (fresh ids from 0; the saved ids and
timestamps are ignored by the replay), then restore the reasoning bank and set
`currentId = data.currentId || this.currentId`. -/
def AgentDB.importDB {V : Type} (s : AgentDB V) (data : Snapshot V) (now : ℕ) :
    Option DBErr × AgentDB V :=
  let s1 := s.clear
  let s2 : AgentDB V :=
    match data.config with
    | some c => { s1 with dimension := c.dimension, maxElements := c.maxElements }
    | none => s1
  match (match data.memoryStore with
         | some es => importVectors now s2 es
         | none => (none, s2)) with
  | (some er, s3) => (some er, s3)
  | (none, s3) =>
      let s4 : AgentDB V :=
        match data.reasoningBank with
        | some rb => { s3 with reasoningBank := rb }
        | none => s3
      (none, { s4 with currentId :=
        match data.currentId with
        | some c => if c = 0 then s4.currentId else c
        | none => s4.currentId })

/-! ### Concrete evaluation helpers -/

/-- A concrete metric for evaluating scenarios: squared Euclidean distance.
On unit vectors it equals twice the cosine distance used by the native index,
so it induces the same neighbor ordering on the unit test vectors below. -/
def demoDist (q v : List ℚ) : ℚ :=
  ((q.zip v).map fun p => (p.1 - p.2) * (p.1 - p.2)).sum

/-- Constructor options selecting only a dimension. -/
def optsD (d : ℕ) : Options :=
  ⟨some d, none, none, none, none⟩

/-! ### Association-list lemmas -/

theorem getA_cons {K V : Type} [DecidableEq K] (p : K × V) (l : List (K × V)) (k : K) :
    getA (p :: l) k = if p.1 = k then some p.2 else getA l k := by
  by_cases h : p.1 = k <;> simp [getA, List.find?, h]

theorem getA_append {K V : Type} [DecidableEq K] (l₁ l₂ : List (K × V)) (k : K) :
    getA (l₁ ++ l₂) k =
      match getA l₁ k with
      | some v => some v
      | none => getA l₂ k := by
  induction l₁ with
  | nil => simp [getA]
  | cons p l ih =>
      by_cases h : p.1 = k <;>
        simp [List.cons_append, getA_cons, h, ih]

theorem getA_map_entry {K V : Type} [DecidableEq K] (m : List (K × V))
    (h : K → V → V) (k : K) :
    getA (m.map fun p => (p.1, h p.1 p.2)) k = (getA m k).map (h k) := by
  induction m with
  | nil => simp [getA]
  | cons p l ih =>
      by_cases hk : p.1 = k
      · subst hk; simp [getA_cons]
      · simp [List.map_cons, getA_cons, hk, ih]

theorem getA_filter_key {K V : Type} [DecidableEq K] (u : List (K × V))
    (q : K → Bool) (k : K) :
    getA (u.filter fun p => q p.1) k = if q k then getA u k else none := by
  induction u with
  | nil => simp [getA]
  | cons p l ih =>
      by_cases hk : p.1 = k
      · subst hk
        cases hq : q p.1 <;> simp [List.filter_cons, hq, getA_cons, ih]
      · cases hq : q p.1 <;> simp [List.filter_cons, hq, getA_cons, hk, ih]

/-- The lookup law of JS spread: `u`'s binding wins, otherwise `m`'s. -/
theorem getA_spreadA {K V : Type} [DecidableEq K] (m u : List (K × V)) (k : K) :
    getA (spreadA m u) k =
      match getA u k with
      | some v => some v
      | none => getA m k := by
  have h1 := getA_map_entry m (fun a b => (getA u a).getD b) k
  rw [spreadA, getA_append, h1, getA_filter_key u (fun a => ! hasA m a) k]
  cases hm : getA m k <;> cases hu : getA u k <;>
    simp [hasA, hm, hu]

theorem getA_setA_self {K V : Type} [DecidableEq K] (l : List (K × V)) (k : K) (v : V) :
    getA (setA l k v) k = some v := by
  rw [setA]
  by_cases h : hasA l k
  · have hmap :
        (l.map fun p => if p.1 = k then (k, v) else p) =
          l.map fun p => (p.1, if p.1 = k then v else p.2) := by
      apply List.map_congr_left
      intro p _
      by_cases hp : p.1 = k <;> simp [hp]
    have h1 := getA_map_entry l (fun a b => if a = k then v else b) k
    rw [if_pos h, hmap, h1]
    rcases Option.isSome_iff_exists.mp h with ⟨w, hw⟩
    simp [hw]
  · rw [if_neg h, getA_append]
    have : getA l k = none := by
      rcases ho : getA l k with _ | w
      · rfl
      · exact absurd (by simp [hasA, ho]) h
    simp [this, getA_cons]

theorem getA_delA_self {K V : Type} [DecidableEq K] (l : List (K × V)) (k : K) :
    getA (delA l k) k = none := by
  rw [delA]
  have := getA_filter_key l (fun a => decide (a ≠ k)) k
  simpa using this

theorem hasA_delA {K V : Type} [DecidableEq K] (l : List (K × V)) (k : K) :
    hasA (delA l k) k = false := by
  simp [hasA, getA_delA_self]

theorem mem_setA_self {K V : Type} [DecidableEq K] (l : List (K × V)) (k : K) (v : V) :
    (k, v) ∈ setA l k v := by
  rw [setA]
  by_cases h : hasA l k
  · rw [if_pos h]
    rcases hf : l.find? (fun p => decide (p.1 = k)) with _ | q
    · exact absurd h (by simp [hasA, getA, hf])
    · have hq1 : q.1 = k := by simpa using List.find?_some hf
      have hqmem : q ∈ l := List.mem_of_find?_eq_some hf
      exact List.mem_map.mpr ⟨q, hqmem, by simp [hq1]⟩
  · rw [if_neg h]
    simp

theorem foldl_push_filter {α : Type} (q : α → Bool) :
    ∀ (l acc : List α),
      l.foldl (fun a x => if q x then a ++ [x] else a) acc = acc ++ l.filter q := by
  intro l
  induction l with
  | nil => intro acc; simp
  | cons x xs ih =>
      intro acc
      cases hq : q x <;> simp [List.filter_cons, hq, ih]

/-! ### Claim C6: updateMetadata is a shallow merge -/

/-- C6: `updateMetadata` on an existing id returns true and replaces the stored
metadata with the JS shallow merge `{...old, ...update}`: every key bound by
the update maps to the update's value, and every key of the old metadata not
bound by the update keeps its old value.  On a nonexistent id it returns false
and leaves the state unchanged. -/
theorem updateMetadata_shallow_merge {V : Type} (s : AgentDB V) (i : ℕ)
    (u : List (String × V)) :
    (∀ r, getA s.memoryStore i = some r →
      (s.updateMetadata i u).1 = true ∧
      getA (s.updateMetadata i u).2.memoryStore i =
        some ⟨r.vector, spreadA r.metadata u, r.timestamp, r.id⟩ ∧
      (∀ k v, getA u k = some v → getA (spreadA r.metadata u) k = some v) ∧
      (∀ k, getA u k = none → getA (spreadA r.metadata u) k = getA r.metadata k)) ∧
    (getA s.memoryStore i = none → s.updateMetadata i u = (false, s)) := by
  constructor
  · intro r hr
    refine ⟨by simp [AgentDB.updateMetadata, hr], ?_, ?_, ?_⟩
    · simp only [AgentDB.updateMetadata, hr]
      exact getA_setA_self _ _ _
    · intro k v hk
      rw [getA_spreadA]
      simp [hk]
    · intro k hk
      rw [getA_spreadA]
      simp [hk]
  · intro hr
    simp [AgentDB.updateMetadata, hr]

/-- Witness for C6 at the spec's concrete example: metadata `{a:1}` updated
with `{b:2}` yields `{a:1, b:2}`. -/
theorem updateMetadata_shallow_merge_witness :
    getA ((AgentDB.init ℤ (optsD 2)).addVector [1, 0] [("a", 1)] 0).2.memoryStore 0 =
      some ⟨[1, 0], [("a", 1)], 0, 0⟩ ∧
    (((AgentDB.init ℤ (optsD 2)).addVector [1, 0] [("a", 1)] 0).2.updateMetadata 0 [("b", 2)]).1 = true ∧
    getA (((AgentDB.init ℤ (optsD 2)).addVector [1, 0] [("a", 1)] 0).2.updateMetadata 0
        [("b", 2)]).2.memoryStore 0 = some ⟨[1, 0], [("a", 1), ("b", 2)], 0, 0⟩ := by
  have h := (updateMetadata_shallow_merge
    ((AgentDB.init ℤ (optsD 2)).addVector [1, 0] [("a", 1)] 0).2 0 [("b", 2)]).1
    ⟨[1, 0], [("a", 1)], 0, 0⟩ (by decide)
  refine ⟨by decide, h.1, ?_⟩
  rw [h.2.1]
  decide

/-! ### Claim C7: deleteVector reports existence and is idempotent -/

/-- C7: `deleteVector(id)` returns true exactly when a record with that id is
in the metadata store, removes that record, and a second call on the same id
returns false leaving the state unchanged. -/
theorem deleteVector_existed_and_idempotent {V : Type} (s : AgentDB V) (i : ℕ) :
    (s.deleteVector i).1 = hasA s.memoryStore i ∧
    hasA (s.deleteVector i).2.memoryStore i = false ∧
    (s.deleteVector i).2.deleteVector i = (false, (s.deleteVector i).2) := by
  by_cases h : hasA s.memoryStore i
  · refine ⟨by simp [AgentDB.deleteVector, h], ?_, ?_⟩ <;>
      simp [AgentDB.deleteVector, h, hasA_delA]
  · have hb : hasA s.memoryStore i = false := by simpa using h
    refine ⟨by simp [AgentDB.deleteVector, hb], ?_, ?_⟩ <;>
      simp [AgentDB.deleteVector, hb]

/-! ### Claim C8: searchReasoning is case-insensitive substring filtering -/

/-- C8: `searchReasoning(term)` returns, in insertion order, exactly the
reasoning records whose `context` or `reasoning` field contains the term
case-insensitively (the filter characterization); a record just added by
`addReasoning` whose fields match the term is among the results; and when no
record of the bank matches, the result is empty. -/
theorem searchReasoning_matches {V : Type} (s : AgentDB V) (term : String) :
    s.searchReasoning term = s.reasoningBank.filter (fun p => ciMatch term p.2) ∧
    (∀ (rid context reasoning : String) (md : List (String × V)) (now : ℕ),
      ciMatch term ⟨context, reasoning, md, now⟩ = true →
      (rid, (⟨context, reasoning, md, now⟩ : RRec V)) ∈
        ((s.addReasoning rid context reasoning md now).2.searchReasoning term)) ∧
    ((∀ p ∈ s.reasoningBank, ciMatch term p.2 = false) →
      s.searchReasoning term = []) := by
  have hfil : ∀ bank : List (String × RRec V),
      bank.foldl (fun acc p => if ciMatch term p.2 then acc ++ [p] else acc) [] =
        bank.filter (fun p => ciMatch term p.2) := by
    intro bank
    simpa using foldl_push_filter (fun p : String × RRec V => ciMatch term p.2) bank []
  refine ⟨hfil s.reasoningBank, ?_, ?_⟩
  · intro rid c rsn md now hm
    simp only [AgentDB.searchReasoning, AgentDB.addReasoning]
    rw [hfil]
    exact List.mem_filter.mpr ⟨mem_setA_self _ _ _, by simpa using hm⟩
  · intro hnone
    simp only [AgentDB.searchReasoning]
    rw [hfil]
    exact List.filter_eq_nil_iff.mpr fun p hp => by simp [hnone p hp]

/-- Witness for C8: after adding a record whose context is "Solved With Cache",
searching the uppercase term "CACHE" returns it. -/
theorem searchReasoning_matches_witness :
    ciMatch "CACHE" (⟨"Solved With Cache", "use the LRU cache", [], 5⟩ : RRec ℤ) = true ∧
    ("r1", (⟨"Solved With Cache", "use the LRU cache", [], 5⟩ : RRec ℤ)) ∈
      (((AgentDB.init ℤ (optsD 2)).addReasoning "r1" "Solved With Cache"
        "use the LRU cache" [] 5).2.searchReasoning "CACHE") := by
  refine ⟨by decide, ?_⟩
  exact (searchReasoning_matches (AgentDB.init ℤ (optsD 2)) "CACHE").2.1
    "r1" "Solved With Cache" "use the LRU cache" [] 5 (by decide)

/-! ### Sort length lemmas -/

theorem length_insertByDist {α : Type} (d : α → ℚ) (x : α) (l : List α) :
    (insertByDist d x l).length = l.length + 1 := by
  induction l with
  | nil => rfl
  | cons y ys ih =>
      by_cases h : d x < d y <;> simp [insertByDist, h, ih]

theorem length_sortByDist {α : Type} (d : α → ℚ) (l : List α) :
    (sortByDist d l).length = l.length := by
  suffices h : ∀ l acc : List α,
      (l.foldl (fun acc x => insertByDist d x acc) acc).length = l.length + acc.length by
    simpa using h l []
  intro l
  induction l with
  | nil => intro acc; simp
  | cons x xs ih =>
      intro acc
      simp [List.foldl_cons, ih, length_insertByDist]
      omega

/-! ### Shared concrete scenarios -/

/-- A fresh store configured with dimension 2. -/
def store2 : AgentDB ℤ := AgentDB.init ℤ (optsD 2)

/-- `store2` after `addVector([1,0])`, which returned id 0. -/
def store2a : AgentDB ℤ := (store2.addVector [1, 0] [] 0).2

/-- `store2a` after `addVector([0,1])`, which returned id 1. -/
def store2ab : AgentDB ℤ := (store2a.addVector [0, 1] [] 1).2

/-! ### Claim C1: deleted ids must not be returned by search (code bug) -/

/-- C1: evidence against the claim, at the failing input of the delete defect.
In a dimension-2 store holding only `[1,0]` under id 0, `deleteVector(0)`
returns true, yet `search([1,0], 1)` still returns id 0 — hydrated with no
metadata record (`none`) — while id 0 no longer resolves in the metadata
store.  The statement holds for every metric the index might compute, since
the only stored point is returned regardless of distances. -/
theorem deleteVector_leaves_dangling_search_result :
    (store2a.deleteVector 0).1 = true ∧
    (∀ dist : List ℚ → List ℚ → ℚ,
      (store2a.deleteVector 0).2.search dist [1, 0] 1 =
        Except.ok [⟨0, dist [1, 0] [1, 0], none⟩]) ∧
    getA (store2a.deleteVector 0).2.memoryStore 0 = none := by
  refine ⟨by decide, fun dist => rfl, by decide⟩

/-! ### Claim C2: failed addVector must not mutate the store (code bug) -/

/-- C2: evidence against the claim, at the spec's own failing input.  On a
fresh dimension-4 store, `addVector([1,2,3])` fails with the dimension
mismatch error and leaves the index, metadata store and reasoning bank
unchanged, but increments `currentId` from 0 to 1, because the source runs
`this.currentId++` before validating the vector length. -/
theorem addVector_mismatch_increments_currentId :
    ((AgentDB.init ℤ (optsD 4)).addVector [1, 2, 3] [] 0).1 =
      Except.error (DBErr.dimensionMismatch 3 4) ∧
    (AgentDB.init ℤ (optsD 4)).currentId = 0 ∧
    ((AgentDB.init ℤ (optsD 4)).addVector [1, 2, 3] [] 0).2.currentId = 1 ∧
    ((AgentDB.init ℤ (optsD 4)).addVector [1, 2, 3] [] 0).2.index =
      (AgentDB.init ℤ (optsD 4)).index ∧
    ((AgentDB.init ℤ (optsD 4)).addVector [1, 2, 3] [] 0).2.memoryStore =
      (AgentDB.init ℤ (optsD 4)).memoryStore ∧
    ((AgentDB.init ℤ (optsD 4)).addVector [1, 2, 3] [] 0).2.reasoningBank =
      (AgentDB.init ℤ (optsD 4)).reasoningBank := by
  decide

/-! ### Claim C4: malformed import must fail atomically (code bug) -/

/-- A store holding one vector record and one reasoning record. -/
def c4pre : AgentDB ℤ :=
  ((store2.addVector [1, 0] [("k", 1)] 2).2.addReasoning "r1" "ctx" "why" [] 3).2

/-- The malformed snapshot `{}`: every expected field missing. -/
def emptySnap : Snapshot ℤ := ⟨none, none, none, none⟩

/-- C4: evidence against the claim.  `import({})` on a store holding one
vector and one reasoning record does not fail — it clears the store first and
returns normally, so the prior state is destroyed and no error is ever
reported, the opposite of atomic failure. -/
theorem importDB_malformed_snapshot_clears_store :
    c4pre.memoryStore.length = 1 ∧
    c4pre.reasoningBank.length = 1 ∧
    (c4pre.importDB emptySnap 9).1 = none ∧
    (c4pre.importDB emptySnap 9).2.memoryStore = [] ∧
    (c4pre.importDB emptySnap 9).2.reasoningBank = [] ∧
    (c4pre.importDB emptySnap 9).2.currentId = 0 := by
  decide

/-! ### Claim C5: search length must be min(k, live count) (code bug) -/

/-- C5: evidence against the length clause, at the failing input.  With
vectors `[1,0]` (id 0) and `[0,1]` (id 1) inserted and id 1 deleted, the live
count is 1, yet `search([1,0], 2)` returns 2 results, because the index still
serves the deleted point: the result length is min(k, points ever indexed),
not min(k, live count).  The count holds for every metric. -/
theorem search_length_counts_deleted_points :
    (store2ab.deleteVector 1).1 = true ∧
    (store2ab.deleteVector 1).2.memoryStore.length = 1 ∧
    (∀ dist : List ℚ → List ℚ → ℚ,
      ((store2ab.deleteVector 1).2.search dist [1, 0] 2).map List.length =
        Except.ok 2) ∧
    min 2 (store2ab.deleteVector 1).2.memoryStore.length = 1 := by
  refine ⟨by decide, by decide, ?_, by decide⟩
  intro dist
  have hdim : (store2ab.deleteVector 1).2.dimension = 2 := by decide
  have hidx : (store2ab.deleteVector 1).2.index = [(0, [1, 0]), (1, [0, 1])] := by decide
  simp only [AgentDB.search, hdim, hidx, searchKnn]
  simp [Except.map, List.length_take, length_sortByDist]

/-! ### Claim C3: export / clear / import round trip -/

/-- The records created by the import replay loop: the j-th replayed entry is
stored under the fresh id `c + j` with timestamp `now`. -/
def importedRecs {V : Type} (now : ℕ) : ℕ → List (ExportEntry V) → List (ℕ × VRec V)
  | _, [] => []
  | c, e :: es => (c, ⟨e.vector, e.metadata, now, c⟩) :: importedRecs now (c + 1) es

theorem hasA_eq_false_of_keys_lt {V : Type} (l : List (ℕ × V)) (c : ℕ)
    (h : ∀ p ∈ l, p.1 < c) : hasA l c = false := by
  rcases hg : getA l c with _ | v
  · simp [hasA, hg]
  · exfalso
    obtain ⟨p, hfind⟩ : ∃ p, l.find? (fun p => decide (p.1 = c)) = some p := by
      rcases hf : l.find? (fun p => decide (p.1 = c)) with _ | p
      · simp [getA, hf] at hg
      · exact ⟨p, hf⟩
    have h1 : p.1 = c := by simpa using List.find?_some hfind
    have h2 := h p (List.mem_of_find?_eq_some hfind)
    omega

/-- Closed form of the replay loop on well-formed input: every entry has the
right dimension and all present keys are below the counter, so every
`addVector` succeeds and appends. -/
theorem importVectors_eq {V : Type} (now : ℕ) :
    ∀ (es : List (ExportEntry V)) (t : AgentDB V),
      (∀ e ∈ es, e.vector.length = t.dimension) →
      (∀ p ∈ t.memoryStore, p.1 < t.currentId) →
      importVectors now t es =
        (none,
          { t with
            currentId := t.currentId + es.length
            index := t.index ++ (List.range' t.currentId es.length).zip (es.map ExportEntry.vector)
            memoryStore := t.memoryStore ++ importedRecs now t.currentId es }) := by
  intro es
  induction es with
  | nil =>
      intro t hd hk
      simp [importVectors, importedRecs]
  | cons e es ih =>
      intro t hd hk
      have hdim : ¬ e.vector.length ≠ t.dimension := by
        simp [hd e (List.mem_cons_self e es)]
      have hset : setA t.memoryStore t.currentId ⟨e.vector, e.metadata, now, t.currentId⟩ =
          t.memoryStore ++ [(t.currentId, ⟨e.vector, e.metadata, now, t.currentId⟩)] := by
        rw [setA, hasA_eq_false_of_keys_lt t.memoryStore t.currentId hk]
        simp
      have hstep : importVectors now t (e :: es) =
          importVectors now
            { t with
              currentId := t.currentId + 1
              index := t.index ++ [(t.currentId, e.vector)]
              memoryStore := t.memoryStore ++ [(t.currentId, ⟨e.vector, e.metadata, now, t.currentId⟩)] }
            es := by
        simp [importVectors, AgentDB.addVector, hdim, hset]
      rw [hstep, ih]
      · have harith : t.currentId + 1 + es.length = t.currentId + (es.length + 1) := by omega
        simp [importedRecs, List.range'_succ, List.zip_cons_cons, harith, List.length_cons]
      · intro e' he'
        exact hd e' (List.mem_cons_of_mem e he')
      · intro p hp
        show p.1 < t.currentId + 1
        rcases List.mem_append.mp hp with h1 | h1
        · have := hk p h1
          omega
        · have h2 := List.mem_singleton.mp h1
          subst h2
          simp

/-- Imports of a fully-populated snapshot, in closed form. -/
theorem importDB_full_snapshot {V : Type} (s' : AgentDB V) (es : List (ExportEntry V))
    (rb : List (String × RRec V)) (cid : ℕ) (cfg : ConfigSnap) (now : ℕ)
    (hd : ∀ e ∈ es, e.vector.length = cfg.dimension) :
    s'.importDB ⟨some es, some rb, some cid, some cfg⟩ now =
      (none,
        { s' with
          dimension := cfg.dimension
          maxElements := cfg.maxElements
          index := (List.range' 0 es.length).zip (es.map ExportEntry.vector)
          memoryStore := importedRecs now 0 es
          reasoningBank := rb
          currentId := if cid = 0 then es.length else cid }) := by
  have h := importVectors_eq now es
    { s'.clear with dimension := cfg.dimension, maxElements := cfg.maxElements }
    (by simpa [AgentDB.clear] using hd)
    (by simp [AgentDB.clear])
  simp only [AgentDB.importDB, AgentDB.clear] at h ⊢
  rw [h]
  simp [AgentDB.clear]

/-- The (id, distance) projection of `search` depends only on the index and
the configured dimension. -/
theorem search_proj_eq {V : Type} (dist : List ℚ → List ℚ → ℚ) (s₁ s₂ : AgentDB V)
    (q : List ℚ) (k : ℕ) (hi : s₁.index = s₂.index) (hd : s₁.dimension = s₂.dimension) :
    (s₁.search dist q k).map (fun l => l.map fun r => (r.nbrId, r.distance)) =
      (s₂.search dist q k).map (fun l => l.map fun r => (r.nbrId, r.distance)) := by
  simp only [AgentDB.search, searchKnn, hi, hd]
  by_cases h : q.length ≠ s₂.dimension
  · simp [h]
  · simp only [h, if_false, Except.map, List.map_map]
    rfl

/-- The dimension-2 store with ids 0 and 1 after `deleteVector(0)`. -/
def c3pre : AgentDB ℤ := (store2ab.deleteVector 0).2

/-- C3: counterexample.  On the store holding `[1,0]` (id 0, deleted) and
`[0,1]` (id 1, live), `search([0,1], 2)` before the round trip returns ids
`[1, 0]`, but after export / clear / import it returns `[0]`: the surviving
vector is renumbered from id 1 to id 0 by the replay and the second result
disappears, so the claim fails on this store. -/
theorem export_import_roundtrip_cex :
    (c3pre.search demoDist [0, 1] 2).map (fun l => l.map fun r => r.nbrId) =
      Except.ok [1, 0] ∧
    ((c3pre.clear.importDB c3pre.exportDB 7).2.search demoDist [0, 1] 2).map
        (fun l => l.map fun r => r.nbrId) = Except.ok [0] := by
  with_unfolding_all decide

/-- C3 (amended): provided no `deleteVector` and no failed `addVector` has
happened since the last clear/import — precisely: the live records carry ids
0..n-1 in insertion order and the index holds exactly their (id, vector)
points — `export()`, then `clear()`, then `import` of the snapshot succeeds
and reproduces identical search results: the same ids in the same order with
identical distances, for every query, every k and every metric. -/
theorem export_import_roundtrip_preserves_search {V : Type} (s : AgentDB V)
    (hids : s.memoryStore.map Prod.fst = List.range s.memoryStore.length)
    (hidx : s.index = s.memoryStore.map fun p => (p.1, p.2.vector))
    (hdims : ∀ p ∈ s.memoryStore, p.2.vector.length = s.dimension)
    (dist : List ℚ → List ℚ → ℚ) (q : List ℚ) (k now : ℕ) :
    (s.clear.importDB s.exportDB now).1 = none ∧
    ((s.clear.importDB s.exportDB now).2.search dist q k).map
        (fun l => l.map fun r => (r.nbrId, r.distance)) =
      (s.search dist q k).map (fun l => l.map fun r => (r.nbrId, r.distance)) := by
  have hd : ∀ e ∈ s.memoryStore.map
      (fun p => (⟨p.1, p.2.vector, p.2.metadata, p.2.timestamp⟩ : ExportEntry V)),
      e.vector.length = s.dimension := by
    intro e he
    rcases List.mem_map.mp he with ⟨p, hp, rfl⟩
    exact hdims p hp
  have himp := importDB_full_snapshot s.clear
    (s.memoryStore.map fun p => ⟨p.1, p.2.vector, p.2.metadata, p.2.timestamp⟩)
    s.reasoningBank s.currentId ⟨s.dimension, s.maxElements, s.m, s.efConstruction, s.efSearch⟩
    now hd
  have hexp : s.exportDB =
      ⟨some (s.memoryStore.map fun p => ⟨p.1, p.2.vector, p.2.metadata, p.2.timestamp⟩),
        some s.reasoningBank, some s.currentId,
        some ⟨s.dimension, s.maxElements, s.m, s.efConstruction, s.efSearch⟩⟩ := rfl
  rw [hexp, himp]
  refine ⟨rfl, ?_⟩
  apply search_proj_eq
  · have h1 : (s.memoryStore.map fun p =>
        (⟨p.1, p.2.vector, p.2.metadata, p.2.timestamp⟩ : ExportEntry V)).length =
        s.memoryStore.length := List.length_map _ _
    have h2 : List.map ExportEntry.vector (s.memoryStore.map fun p =>
        (⟨p.1, p.2.vector, p.2.metadata, p.2.timestamp⟩ : ExportEntry V)) =
        s.memoryStore.map fun p => p.2.vector := by
      rw [List.map_map]
      rfl
    show (List.range' 0 _).zip _ = s.index
    rw [h1, h2, ← List.range_eq_range', ← hids, List.zip_map', hidx]
  · rfl

/-- Witness for the amended C3 at a concrete deletion-free store: two vectors,
ids 0 and 1, round-tripped and queried with `[1,0]`, k = 2. -/
theorem export_import_roundtrip_preserves_search_witness :
    store2ab.memoryStore.map Prod.fst = List.range store2ab.memoryStore.length ∧
    store2ab.index = store2ab.memoryStore.map (fun p => (p.1, p.2.vector)) ∧
    (∀ p ∈ store2ab.memoryStore, p.2.vector.length = store2ab.dimension) ∧
    (store2ab.clear.importDB store2ab.exportDB 9).1 = none ∧
    ((store2ab.clear.importDB store2ab.exportDB 9).2.search demoDist [1, 0] 2).map
        (fun l => l.map fun r => (r.nbrId, r.distance)) =
      (store2ab.search demoDist [1, 0] 2).map
        (fun l => l.map fun r => (r.nbrId, r.distance)) := by
  refine ⟨by with_unfolding_all decide, by with_unfolding_all decide,
    by with_unfolding_all decide, ?_, ?_⟩
  · exact (export_import_roundtrip_preserves_search store2ab
      (by with_unfolding_all decide) (by with_unfolding_all decide)
      (by with_unfolding_all decide) demoDist [1, 0] 2 9).1
  · exact (export_import_roundtrip_preserves_search store2ab
      (by with_unfolding_all decide) (by with_unfolding_all decide)
      (by with_unfolding_all decide) demoDist [1, 0] 2 9).2

/-! ### Claim C9: id assignment across operation traces -/

/-- The mutating facade operations.  `add` is `addVector`, `del` is
`deleteVector`, `upd` is `updateMetadata`, `addR` is `addReasoning`, and
`clearOp`/`importOp` are the two state-resetting operations. -/
inductive Op (V : Type) where
  | add (vector : List ℚ) (metadata : List (String × V)) (now : ℕ)
  | del (id : ℕ)
  | upd (id : ℕ) (metadata : List (String × V))
  | addR (rid context reasoning : String) (metadata : List (String × V)) (now : ℕ)
  | clearOp
  | importOp (snap : Snapshot V) (now : ℕ)
deriving DecidableEq

/-- Whether an operation resets the store (`clear()` or `import()`). -/
def isReset {V : Type} : Op V → Bool
  | Op.clearOp => true
  | Op.importOp _ _ => true
  | _ => false

/-- The state after one operation. -/
def stepOp {V : Type} (s : AgentDB V) : Op V → AgentDB V
  | Op.add v md now => (s.addVector v md now).2
  | Op.del i => (s.deleteVector i).2
  | Op.upd i md => (s.updateMetadata i md).2
  | Op.addR rid c r md now => (s.addReasoning rid c r md now).2
  | Op.clearOp => s.clear
  | Op.importOp snap now => (s.importDB snap now).2

/-- The state after a sequence of operations. -/
def runOps {V : Type} (s : AgentDB V) (ops : List (Op V)) : AgentDB V :=
  ops.foldl stepOp s

/-- The ids returned by the successful `addVector` calls of a run, in call
order. -/
def returnedIds {V : Type} : AgentDB V → List (Op V) → List ℕ
  | _, [] => []
  | s, Op.add v md now :: ops =>
      match AgentDB.addVector s v md now with
      | (Except.ok i, s1) => i :: returnedIds s1 ops
      | (Except.error _, s1) => returnedIds s1 ops
  | s, op :: ops => returnedIds (stepOp s op) ops

theorem addVector_currentId {V : Type} (s : AgentDB V) (v : List ℚ)
    (md : List (String × V)) (now : ℕ) :
    (s.addVector v md now).2.currentId = s.currentId + 1 := by
  by_cases h : v.length ≠ s.dimension <;> simp [AgentDB.addVector, h]

theorem stepOp_currentId {V : Type} (s : AgentDB V) (op : Op V)
    (h : isReset op = false) : s.currentId ≤ (stepOp s op).currentId := by
  cases op with
  | add v md now => simp [stepOp, addVector_currentId]
  | del i => by_cases hi : hasA s.memoryStore i <;> simp [stepOp, AgentDB.deleteVector, hi]
  | upd i md =>
      rcases hg : getA s.memoryStore i with _ | e <;>
        simp [stepOp, AgentDB.updateMetadata, hg]
  | addR rid c r md now => simp [stepOp, AgentDB.addReasoning]
  | clearOp => simp [isReset] at h
  | importOp snap now => simp [isReset] at h

theorem runOps_currentId {V : Type} :
    ∀ (ops : List (Op V)) (s : AgentDB V), (∀ op ∈ ops, isReset op = false) →
      s.currentId ≤ (runOps s ops).currentId := by
  intro ops
  induction ops with
  | nil => intro s _; simp [runOps]
  | cons op ops ih =>
      intro s h
      have h1 := stepOp_currentId s op (h op (List.mem_cons_self op ops))
      have h2 := ih (stepOp s op) fun o ho => h o (List.mem_cons_of_mem op ho)
      simpa [runOps] using le_trans h1 h2

theorem returnedIds_lb {V : Type} :
    ∀ (ops : List (Op V)) (s : AgentDB V), (∀ op ∈ ops, isReset op = false) →
      ∀ i ∈ returnedIds s ops, s.currentId ≤ i := by
  intro ops
  induction ops with
  | nil => intro s _ i hi; simp [returnedIds] at hi
  | cons op ops ih =>
      intro s h i hi
      have hops : ∀ o ∈ ops, isReset o = false := fun o ho => h o (List.mem_cons_of_mem op ho)
      cases op with
      | add v md now =>
          rcases ha : AgentDB.addVector s v md now with ⟨out, s1⟩
          have hs1 : s1.currentId = s.currentId + 1 := by
            have := addVector_currentId s v md now
            rw [ha] at this
            exact this
          cases out with
          | ok j =>
              simp only [returnedIds, ha] at hi
              rcases List.mem_cons.mp hi with rfl | hi2
              · have : (Except.ok i, s1) = AgentDB.addVector s v md now := ha.symm
                have hj : i = s.currentId := by
                  have h2 : (AgentDB.addVector s v md now).1 = Except.ok i := by rw [ha]
                  by_cases hd : v.length ≠ s.dimension
                  · simp [AgentDB.addVector, hd] at h2
                  · simp [AgentDB.addVector, hd] at h2
                    omega
                omega
              · have := ih s1 hops i hi2
                omega
          | error e =>
              simp only [returnedIds, ha] at hi
              have := ih s1 hops i hi
              omega
      | del j =>
          have := ih (stepOp s (Op.del j)) hops i (by simpa [returnedIds] using hi)
          have h1 := stepOp_currentId s (Op.del j) (by simp [isReset])
          omega
      | upd j md =>
          have := ih (stepOp s (Op.upd j md)) hops i (by simpa [returnedIds] using hi)
          have h1 := stepOp_currentId s (Op.upd j md) (by simp [isReset])
          omega
      | addR rid c r md now =>
          have := ih (stepOp s (Op.addR rid c r md now)) hops i (by simpa [returnedIds] using hi)
          have h1 := stepOp_currentId s (Op.addR rid c r md now) (by simp [isReset])
          omega
      | clearOp => exact absurd (h _ (List.mem_cons_self _ _)) (by simp [isReset])
      | importOp snap now => exact absurd (h _ (List.mem_cons_self _ _)) (by simp [isReset])

theorem returnedIds_chain {V : Type} :
    ∀ (ops : List (Op V)) (s : AgentDB V), (∀ op ∈ ops, isReset op = false) →
      List.Chain' (· < ·) (returnedIds s ops) := by
  intro ops
  induction ops with
  | nil => intro s _; simp [returnedIds]
  | cons op ops ih =>
      intro s h
      have hops : ∀ o ∈ ops, isReset o = false := fun o ho => h o (List.mem_cons_of_mem op ho)
      cases op with
      | add v md now =>
          rcases ha : AgentDB.addVector s v md now with ⟨out, s1⟩
          have hs1 : s1.currentId = s.currentId + 1 := by
            have := addVector_currentId s v md now
            rw [ha] at this
            exact this
          cases out with
          | ok j =>
              simp only [returnedIds, ha]
              rw [List.chain'_cons']
              refine ⟨?_, ih s1 hops⟩
              intro y hy
              have hmem := List.mem_of_mem_head? hy
              have hlb := returnedIds_lb ops s1 hops y hmem
              have hj : j = s.currentId := by
                have h2 : (AgentDB.addVector s v md now).1 = Except.ok j := by rw [ha]
                by_cases hd : v.length ≠ s.dimension
                · simp [AgentDB.addVector, hd] at h2
                · simp [AgentDB.addVector, hd] at h2
                  omega
              omega
          | error e =>
              simp only [returnedIds, ha]
              exact ih s1 hops
      | del j =>
          simp only [returnedIds]
          exact ih _ hops
      | upd j md =>
          simp only [returnedIds]
          exact ih _ hops
      | addR rid c r md now =>
          simp only [returnedIds]
          exact ih _ hops
      | clearOp => exact absurd (h _ (List.mem_cons_self _ _)) (by simp [isReset])
      | importOp snap now => exact absurd (h _ (List.mem_cons_self _ _)) (by simp [isReset])

theorem mem_setA_elim {K V : Type} [DecidableEq K] (l : List (K × V)) (k : K) (v : V)
    (p : K × V) (hp : p ∈ setA l k v) : p = (k, v) ∨ p ∈ l := by
  rw [setA] at hp
  by_cases h : hasA l k
  · rw [if_pos h] at hp
    rcases List.mem_map.mp hp with ⟨q, hq, hfq⟩
    by_cases hk : q.1 = k
    · left
      rw [← hfq]
      simp [hk]
    · right
      rw [← hfq]
      simpa [hk] using hq
  · rw [if_neg h] at hp
    rcases List.mem_append.mp hp with h1 | h1
    · right; exact h1
    · left; simpa using h1

theorem exists_key_of_getA {K V : Type} [DecidableEq K] (l : List (K × V)) (k : K) (v : V)
    (h : getA l k = some v) : ∃ p ∈ l, p.1 = k := by
  rcases hf : l.find? (fun p => decide (p.1 = k)) with _ | q
  · simp [getA, hf] at h
  · exact ⟨q, List.mem_of_find?_eq_some hf, by simpa using List.find?_some hf⟩

/-- Every non-reset operation preserves the invariant that all stored ids are
below the id counter. -/
theorem stepOp_keysLt {V : Type} (s : AgentDB V) (op : Op V)
    (hop : isReset op = false) (hk : ∀ p ∈ s.memoryStore, p.1 < s.currentId) :
    ∀ p ∈ (stepOp s op).memoryStore, p.1 < (stepOp s op).currentId := by
  cases op with
  | add v md now =>
      intro p hp
      by_cases hd : v.length ≠ s.dimension
      · simp only [stepOp] at hp ⊢
        simp [AgentDB.addVector, hd] at hp ⊢
        have := hk p hp
        omega
      · simp only [stepOp] at hp ⊢
        simp only [AgentDB.addVector, hd, if_false] at hp ⊢
        rcases mem_setA_elim _ _ _ p (by simpa using hp) with heq | hmem
        · rw [heq]
          simp
        · have := hk p hmem
          simp
          omega
  | del i =>
      intro p hp
      by_cases hi : hasA s.memoryStore i
      · simp only [stepOp, AgentDB.deleteVector, hi, if_true] at hp ⊢
        simp only [delA] at hp
        exact hk p (List.mem_of_mem_filter hp)
      · simp only [stepOp, AgentDB.deleteVector, hi] at hp ⊢
        simp at hp ⊢
        exact hk p hp
  | upd i md =>
      intro p hp
      rcases hg : getA s.memoryStore i with _ | e
      · simp [stepOp, AgentDB.updateMetadata, hg] at hp ⊢
        exact hk p hp
      · simp only [stepOp, AgentDB.updateMetadata, hg] at hp ⊢
        rcases mem_setA_elim _ _ _ p (by simpa using hp) with heq | hmem
        · rcases exists_key_of_getA _ _ _ hg with ⟨q, hq, hq1⟩
          have := hk q hq
          rw [heq]
          simp
          omega
        · exact hk p hmem
  | addR rid c r md now =>
      intro p hp
      simp [stepOp, AgentDB.addReasoning] at hp ⊢
      exact hk p hp
  | clearOp => simp [isReset] at hop
  | importOp snap now => simp [isReset] at hop

theorem runOps_keysLt {V : Type} :
    ∀ (ops : List (Op V)) (s : AgentDB V), (∀ op ∈ ops, isReset op = false) →
      (∀ p ∈ s.memoryStore, p.1 < s.currentId) →
      ∀ p ∈ (runOps s ops).memoryStore, p.1 < (runOps s ops).currentId := by
  intro ops
  induction ops with
  | nil => intro s _ hk; simpa [runOps] using hk
  | cons op ops ih =>
      intro s h hk
      have h1 := stepOp_keysLt s op (h op (List.mem_cons_self op ops)) hk
      have h2 := ih (stepOp s op) (fun o ho => h o (List.mem_cons_of_mem op ho)) h1
      simpa [runOps] using h2

/-- C9: over any run of facade operations that contains no `clear` and no
`import`, starting from a state whose stored ids are below the id counter
(true of every reachable state), the ids returned by successful `addVector`
calls are strictly increasing, the id counter never decreases, and once
`deleteVector(i)` has returned true, no later `addVector` of the run returns
the id `i` again. -/
theorem addVector_ids_strictly_increasing {V : Type} (s : AgentDB V) (ops : List (Op V))
    (hops : ∀ op ∈ ops, isReset op = false)
    (hinv : ∀ p ∈ s.memoryStore, p.1 < s.currentId) :
    List.Chain' (· < ·) (returnedIds s ops) ∧
    s.currentId ≤ (runOps s ops).currentId ∧
    (∀ pre i post, ops = pre ++ Op.del i :: post →
      ((runOps s pre).deleteVector i).1 = true →
      i ∉ returnedIds (stepOp (runOps s pre) (Op.del i)) post) := by
  refine ⟨returnedIds_chain ops s hops, runOps_currentId ops s hops, ?_⟩
  intro pre i post heq hdel hmem
  have hpre : ∀ op ∈ pre, isReset op = false := by
    intro op hop
    exact hops op (by rw [heq]; exact List.mem_append_left _ hop)
  have hpost : ∀ op ∈ post, isReset op = false := by
    intro op hop
    exact hops op (by rw [heq]; exact List.mem_append_right _ (List.mem_cons_of_mem _ hop))
  have hkpre := runOps_keysLt pre s hpre hinv
  have hhas : hasA (runOps s pre).memoryStore i = true := by
    by_cases h : hasA (runOps s pre).memoryStore i
    · exact h
    · simp [AgentDB.deleteVector, h] at hdel
  have hlt : i < (runOps s pre).currentId := by
    rcases hg : getA (runOps s pre).memoryStore i with _ | v
    · simp [hasA, hg] at hhas
    · rcases exists_key_of_getA _ _ _ hg with ⟨q, hq, hq1⟩
      have := hkpre q hq
      omega
  have hstep : (stepOp (runOps s pre) (Op.del i)).currentId = (runOps s pre).currentId := by
    by_cases h : hasA (runOps s pre).memoryStore i <;>
      simp [stepOp, AgentDB.deleteVector, h]
  have := returnedIds_lb post (stepOp (runOps s pre) (Op.del i)) hpost i hmem
  omega

/-- A concrete run for the C9 witness: add (id 0), delete 0, add (id 1). -/
def c9ops : List (Op ℤ) := [Op.add [1, 0] [] 0, Op.del 0, Op.add [0, 1] [] 1]

/-- Witness for C9 on the concrete run: no resets, the empty start state
satisfies the key invariant, and the returned ids are strictly increasing. -/
theorem addVector_ids_strictly_increasing_witness :
    (∀ op ∈ c9ops, isReset op = false) ∧
    (∀ p ∈ store2.memoryStore, p.1 < store2.currentId) ∧
    List.Chain' (· < ·) (returnedIds store2 c9ops) := by
  exact ⟨by decide, by decide,
    (addVector_ids_strictly_increasing store2 c9ops (by decide) (by decide)).1⟩

/-! ### Claim C10: import applies only dimension and maxElements -/

/-- The replay loop never touches the five configuration fields. -/
theorem importVectors_frame {V : Type} (now : ℕ) :
    ∀ (es : List (ExportEntry V)) (t : AgentDB V),
      (importVectors now t es).2.m = t.m ∧
      (importVectors now t es).2.efConstruction = t.efConstruction ∧
      (importVectors now t es).2.efSearch = t.efSearch ∧
      (importVectors now t es).2.dimension = t.dimension ∧
      (importVectors now t es).2.maxElements = t.maxElements := by
  intro es
  induction es with
  | nil => intro t; simp [importVectors]
  | cons e es ih =>
      intro t
      by_cases hd : e.vector.length ≠ t.dimension
      · simp [importVectors, AgentDB.addVector, hd]
      · have hstep : importVectors now t (e :: es) =
            importVectors now
              { t with
                currentId := t.currentId + 1
                index := t.index ++ [(t.currentId, e.vector)]
                memoryStore := setA t.memoryStore t.currentId ⟨e.vector, e.metadata, now, t.currentId⟩ }
              es := by
          simp [importVectors, AgentDB.addVector, hd]
        rw [hstep]
        simpa using ih _

/-- C10: `import` adopts only `dimension` and `maxElements` from the
snapshot's config — `m`, `efConstruction` and `efSearch` keep their pre-import
values — even though `export` writes all five parameters into the snapshot. -/
theorem importDB_config_frame {V : Type} (s : AgentDB V) (data : Snapshot V) (now : ℕ) :
    (s.importDB data now).2.m = s.m ∧
    (s.importDB data now).2.efConstruction = s.efConstruction ∧
    (s.importDB data now).2.efSearch = s.efSearch ∧
    (∀ c, data.config = some c →
      (s.importDB data now).2.dimension = c.dimension ∧
      (s.importDB data now).2.maxElements = c.maxElements) ∧
    s.exportDB.config = some ⟨s.dimension, s.maxElements, s.m, s.efConstruction, s.efSearch⟩ := by
  obtain ⟨ms, rb, cid, cfg⟩ := data
  cases cfg with
  | none =>
      cases ms with
      | none =>
          cases rb <;>
            exact ⟨rfl, rfl, rfl, fun c hc => by simp at hc, rfl⟩
      | some es =>
          rcases hiv : importVectors now s.clear es with ⟨o, st⟩
          have hf := importVectors_frame now es s.clear
          rw [hiv] at hf
          have hm : st.m = s.m := by simpa [AgentDB.clear] using hf.1
          have hec : st.efConstruction = s.efConstruction := by
            simpa [AgentDB.clear] using hf.2.1
          have hes : st.efSearch = s.efSearch := by simpa [AgentDB.clear] using hf.2.2.1
          cases o with
          | none =>
              cases rb <;>
                · refine ⟨?_, ?_, ?_, ?_, rfl⟩ <;>
                    simp [AgentDB.importDB, hiv, hm, hec, hes]
          | some er =>
              cases rb <;>
                · refine ⟨?_, ?_, ?_, ?_, rfl⟩ <;>
                    simp [AgentDB.importDB, hiv, hm, hec, hes]
  | some c =>
      cases ms with
      | none =>
          cases rb <;>
            · refine ⟨rfl, rfl, rfl, ?_, rfl⟩
              intro c' hc
              have hcc : c' = c := by simpa using hc.symm
              subst hcc
              exact ⟨rfl, rfl⟩
      | some es =>
          rcases hiv : importVectors now
            { s.clear with dimension := c.dimension, maxElements := c.maxElements } es with ⟨o, st⟩
          have hf := importVectors_frame now es
            { s.clear with dimension := c.dimension, maxElements := c.maxElements }
          rw [hiv] at hf
          have hm : st.m = s.m := by simpa [AgentDB.clear] using hf.1
          have hec : st.efConstruction = s.efConstruction := by
            simpa [AgentDB.clear] using hf.2.1
          have hes : st.efSearch = s.efSearch := by simpa [AgentDB.clear] using hf.2.2.1
          have hdm : st.dimension = c.dimension := by simpa using hf.2.2.2.1
          have hmx : st.maxElements = c.maxElements := by simpa using hf.2.2.2.2
          cases o with
          | none =>
              cases rb <;>
                · refine ⟨?_, ?_, ?_, ?_, rfl⟩ <;>
                    simp [AgentDB.importDB, hiv, hm, hec, hes, hdm, hmx]
          | some er =>
              cases rb <;>
                · refine ⟨?_, ?_, ?_, ?_, rfl⟩ <;>
                    simp [AgentDB.importDB, hiv, hm, hec, hes, hdm, hmx]

/-- A snapshot carrying only a config, for the C10 witness. -/
def c10snap : Snapshot ℤ := ⟨none, none, none, some ⟨3, 5, 7, 8, 9⟩⟩

/-- Witness for C10: importing a snapshot whose config is (3, 5, 7, 8, 9)
adopts dimension 3 and maxElements 5 while m, efConstruction, efSearch keep
the store's values. -/
theorem importDB_config_frame_witness :
    c10snap.config = some ⟨3, 5, 7, 8, 9⟩ ∧
    (store2.importDB c10snap 4).2.m = store2.m ∧
    (store2.importDB c10snap 4).2.efConstruction = store2.efConstruction ∧
    (store2.importDB c10snap 4).2.efSearch = store2.efSearch ∧
    (store2.importDB c10snap 4).2.dimension = 3 ∧
    (store2.importDB c10snap 4).2.maxElements = 5 := by
  have h := importDB_config_frame store2 c10snap 4
  have h4 := h.2.2.2.1 ⟨3, 5, 7, 8, 9⟩ rfl
  exact ⟨rfl, h.1, h.2.1, h.2.2.1, h4.1, h4.2⟩

end AgentDBModel
